import Mathlib

/-!
# Verification of the flynn deployer strategy and controller deployment code

Shallow embedding of:
* `deployer/strategies/one-by-one.go` — the `oneByOne` strategy: for each
  process type of the old release's formation it repeatedly increments the
  new release's count, overwrites the new formation, waits for one `up`
  event, decrements the old release's count, overwrites the old formation,
  and waits for one `down` event.
* `controller/deployment.go` — `DeploymentRepo.Add`, `listEvents`,
  `getEvent` and the notification-handling loop of
  `streamDeploymentEvents`.

Go `map[string]int` values are embedded as association lists
(`List (String × Int)`); `m[k]++` / `m[k]--` follow Go semantics where a
missing key reads as the zero value.  The Go `range` order over a map is
nondeterministic, so the strategy model takes the entry list (the
iteration order actually chosen by the runtime) as an input.
-/

namespace Flynn

/-- Association-list embedding of Go `map[string]int`. -/
abbrev FMap := List (String × Int)

/-- Go map read: `m[k]`, returning the zero value 0 when the key is
absent (the first entry for the key; the lists built here always have
distinct keys, as a Go map does). -/
def mapGet : FMap → String → Int
  | [], _ => 0
  | p :: rest, k => if p.1 == k then p.2 else mapGet rest k

/-- Go map write: `m[k] = v`, updating the key's entry in place when
present and adding the entry otherwise. -/
def mapSet : FMap → String → Int → FMap
  | [], k, v => [(k, v)]
  | p :: rest, k, v => if p.1 == k then (k, v) :: rest else p :: mapSet rest k v

/-- Go `m[k]++` (missing key: zero value, so it becomes 1). -/
def incKey (m : FMap) (k : String) : FMap := mapSet m k (mapGet m k + 1)

/-- Go `m[k]--`. -/
def decKey (m : FMap) (k : String) : FMap := mapSet m k (mapGet m k - 1)

/-- The observable operations `oneByOne` issues against the controller and
the job-event stream.  `putFormation` is a full overwrite of one release's
formation (`client.PutFormation`); `waitJobEvents typ state n` is a call
`waitForJobEvents(jobStream, jobEvents{typ: {state: n}})`;
`emitDeploymentEvent` would be a send on the strategy's
`events chan<- deployer.DeploymentEvent` parameter — the source of
`oneByOne` never performs such a send, so this action never occurs in a
trace of the model. -/
inductive Action where
  | putFormation (appID releaseID : String) (processes : FMap)
  | waitJobEvents (typ state : String) (count : Nat)
  | emitDeploymentEvent (releaseID typ state : String)
deriving DecidableEq, Repr

/-- Failures the strategy can hit: a `PutFormation` error, a failure of the
event stream (open failure, closure, or wait error), a `GetFormation`
error, or a crash event observed by `waitForJobEvents`. -/
inductive StratErr where
  | putFailed
  | getFormationFailed
  | streamFailed
  | jobCrashed (typ : String)
deriving DecidableEq, Repr

/-- Outcome oracle for the fallible operations, indexed by the order in
which `oneByOne` performs them: index 0 is `StreamJobEvents`, index 1 is
`GetFormation`, and indices 2,3,… are the loop operations (put, wait, put,
wait, …).  `none` means the operation succeeds. -/
abbrev Oracle := Nat → Option StratErr

/-- The oracle of a run in which every operation succeeds. -/
def allOk : Oracle := fun _ => none

/-- The oracle of a run whose `k`-th operation fails with `e` and all
others succeed. -/
def failAt (k : Nat) (e : StratErr) : Oracle := fun i => if i = k then some e else none

/-- The strategy's local state: the two local formation maps
(`newFormation`, `oldFormation`), the trace of operations successfully
issued so far, and the index of the next fallible operation. -/
structure EngineState where
  newF : FMap
  oldF : FMap
  trace : List Action
  opIdx : Nat
deriving DecidableEq, Repr

/-- One iteration of the inner loop of `oneByOne` (one unit of one process
type): `newFormation[typ]++`; `PutFormation` of the new release; wait for
one `up` of `typ`; `oldFormation[typ]--`; `PutFormation` of the old
release; wait for one `down` of `typ`.  A failing operation stops the
iteration with that error; the local map updates preceding a failed put
have already happened (they are Go locals), but the put is not recorded in
the trace. -/
def runIter (o : Oracle) (appID newRel oldRel typ : String) (s : EngineState) :
    EngineState × Option StratErr :=
  let nf := incKey s.newF typ
  match o s.opIdx with
  | some e => ({ s with newF := nf }, some e)
  | none =>
    let s1 : EngineState :=
      { newF := nf, oldF := s.oldF
        trace := s.trace ++ [Action.putFormation appID newRel nf]
        opIdx := s.opIdx + 1 }
    match o s1.opIdx with
    | some e => (s1, some e)
    | none =>
      let s2 : EngineState :=
        { s1 with trace := s1.trace ++ [Action.waitJobEvents typ "up" 1]
                  opIdx := s1.opIdx + 1 }
      let of := decKey s2.oldF typ
      match o s2.opIdx with
      | some e => ({ s2 with oldF := of }, some e)
      | none =>
        let s3 : EngineState :=
          { s2 with oldF := of
                    trace := s2.trace ++ [Action.putFormation appID oldRel of]
                    opIdx := s2.opIdx + 1 }
        match o s3.opIdx with
        | some e => (s3, some e)
        | none =>
          ({ s3 with trace := s3.trace ++ [Action.waitJobEvents typ "down" 1]
                     opIdx := s3.opIdx + 1 }, none)

/-- The inner loop `for i := 0; i < num; i++` for one process type. -/
def runType (o : Oracle) (appID newRel oldRel typ : String) :
    Nat → EngineState → EngineState × Option StratErr
  | 0, s => (s, none)
  | n + 1, s =>
    match runIter o appID newRel oldRel typ s with
    | (s1, some e) => (s1, some e)
    | (s1, none) => runType o appID newRel oldRel typ n s1

/-- The outer loop `for typ, num := range f.Processes`.  `procs` is the
sequence of map entries in the (runtime-chosen) iteration order; each
entry's count is the value read at range time, which in the source is the
original count because only the entry currently being processed is ever
mutated. -/
def runLoop (o : Oracle) (appID newRel oldRel : String) :
    List (String × Nat) → EngineState → EngineState × Option StratErr
  | [], s => (s, none)
  | (typ, num) :: rest, s =>
    match runType o appID newRel oldRel typ num s with
    | (s1, some e) => (s1, some e)
    | (s1, none) => runLoop o appID newRel oldRel rest s1

/-- The old formation's `Processes` map as read by `GetFormation`,
rendered as an `FMap` in iteration order. -/
def toFMap (procs : List (String × Nat)) : FMap :=
  procs.map (fun p => (p.1, (p.2 : Int)))

/-- Initial strategy state: `newFormation := map[string]int{}`,
`oldFormation := f.Processes`; nothing issued yet; the first loop
operation has index 2 (after `StreamJobEvents` and `GetFormation`). -/
def initState (procs : List (String × Nat)) : EngineState :=
  { newF := [], oldF := toFMap procs, trace := [], opIdx := 2 }

/-- The `oneByOne` strategy of `deployer/strategies/one-by-one.go`.
Operation 0 is `client.StreamJobEvents`, operation 1 is
`client.GetFormation` for the old release; then the nested loops run.
Returns the final local state (with its trace of issued operations) and
the error returned, `none` on success. -/
def oneByOne (o : Oracle) (appID newRel oldRel : String)
    (procs : List (String × Nat)) : EngineState × Option StratErr :=
  match o 0 with
  | some e => (initState procs, some e)
  | none =>
    match o 1 with
    | some e => (initState procs, some e)
    | none => runLoop o appID newRel oldRel procs (initState procs)

/-- Content of the formation store for release `rel` after the writes of a
trace: the formation carried by the last `putFormation` for `rel`, or the
store's initial content `init` when the trace has none. -/
def lastPut (rel : String) (init : FMap) (tr : List Action) : FMap :=
  tr.foldl
    (fun acc a =>
      match a with
      | Action.putFormation _ r f => if r == rel then f else acc
      | _ => acc)
    init

/-- Total desired count the entry list assigns to type `t` (with distinct
keys this is just `t`'s count). -/
def countFor : List (String × Nat) → String → Nat
  | [], _ => 0
  | p :: rest, t => (if p.1 = t then p.2 else 0) + countFor rest t

/-- The keys of a Go map's entry list are pairwise distinct. -/
abbrev distinctKeys (procs : List (String × Nat)) : Prop :=
  (procs.map Prod.fst).Nodup

/-! ## Controller: `controller/deployment.go` -/

/-- A row of the `deployment_events` table / a `ct.DeploymentEvent`.
`createdAt` is the server-assigned timestamp, modelled as a number. -/
structure DeploymentEvent where
  id : Int
  deploymentID : String
  releaseID : String
  jobType : String
  jobState : String
  status : String
  createdAt : Int
deriving DecidableEq, Repr

/-- `DeploymentRepo.listEvents`: the SQL query
`SELECT … FROM deployment_events WHERE deployment_id = $1 AND event_id > $2`.
The query has no `ORDER BY`, so the order in which the database hands
back the rows is unspecified: `scan` is the row sequence the scan happens
to produce — some permutation of the stored table, not necessarily its
insertion order — and the result keeps the matching rows in that
unspecified order. -/
def listEvents (scan : List DeploymentEvent) (deploymentID : String)
    (sinceID : Int) : List DeploymentEvent :=
  scan.filter (fun e => e.deploymentID == deploymentID && sinceID < e.id)

/-- `DeploymentRepo.getEvent`: `QueryRow` on `event_id = $1`; the first
matching row, `none` for `ErrNotFound`. -/
def getEvent (table : List DeploymentEvent) (id : Int) : Option DeploymentEvent :=
  table.find? (fun e => e.id == id)

/-- All characters are decimal digits, and there is at least one:
the digit part of Go's `strconv.ParseInt(s, 10, 64)`. -/
def parseDigits : List Char → Option Nat
  | [] => none
  | [c] => if c.isDigit then some (c.toNat - '0'.toNat) else none
  | c :: rest =>
    if c.isDigit then
      match parseDigits rest with
      | some n => some ((c.toNat - '0'.toNat) * 10 ^ rest.length + n)
      | none => none
    else none

/-- Go `strconv.ParseInt(s, 10, 64)`: an optional sign followed by at
least one decimal digit, with the value required to fit in a signed
64-bit integer; anything else is an error (`none`). -/
def parseInt64 (s : String) : Option Int :=
  match s.data with
  | '+' :: rest =>
    match parseDigits rest with
    | some n => if (n : Int) ≤ 2 ^ 63 - 1 then some (n : Int) else none
    | none => none
  | '-' :: rest =>
    match parseDigits rest with
    | some n => if (n : Int) ≤ 2 ^ 63 then some (-(n : Int)) else none
    | none => none
  | l =>
    match parseDigits l with
    | some n => if (n : Int) ≤ 2 ^ 63 - 1 then some (n : Int) else none
    | none => none

/-- The `case n := <-listener.Notify` branch of the tailing loop in
`streamDeploymentEvents`.  Result `none` means the function returns (the
stream terminates); `some (emitted?, currID')` means the loop continues
with the (possibly empty) emission and the new `currID`.  Faithful to the
source: a payload that fails `strconv.ParseInt` returns; a candidate
`id ≤ currID` is skipped; otherwise the event is fetched by id and sent —
and `currID` is left unchanged, because the source never assigns to
`currID` inside this branch. -/
def handleNotify (table : List DeploymentEvent) (currID : Int)
    (payload : String) : Option (Option DeploymentEvent × Int) :=
  match parseInt64 payload with
  | none => none
  | some id =>
    if id ≤ currID then some (none, currID)
    else
      match getEvent table id with
      | none => none
      | some e => some (some e, currID)

/-- The tailing loop of `streamDeploymentEvents` applied to a sequence of
wake-up notification payloads (ignoring the timer and disconnect cases,
which emit no deployment events).  Returns the deployment events emitted,
in order, and whether the loop terminated early (returned) while
notifications remained. -/
def tailLoop (table : List DeploymentEvent) :
    Int → List String → List DeploymentEvent × Bool
  | _, [] => ([], false)
  | currID, payload :: rest =>
    match handleNotify table currID payload with
    | none => ([], true)
    | some (emitted, currID') =>
      let r := tailLoop table currID' rest
      (emitted.toList ++ r.1, r.2)

/-- The catch-up phase of `streamDeploymentEvents`: emit
`listEvents(deploymentID, sinceID)` and set `currID` to the id of the
last event emitted (`sinceID` when there is none) — note the source
thereby assumes the rows arrive in ascending id order, although the
query has no `ORDER BY`.  In the source the initial cursor is 0; the
resume protocol reconnects with the last seen id, so the model takes it
as a parameter. -/
def catchUp (scan : List DeploymentEvent) (deploymentID : String)
    (sinceID : Int) : List DeploymentEvent × Int :=
  let evs := listEvents scan deploymentID sinceID
  (evs, evs.foldl (fun _ e => e.id) sinceID)

/-- A `ct.Deployment` as mutated by `DeploymentRepo.Add`.  `createdAt` is
`none` until the database assigns it. -/
structure Deployment where
  id : String
  appID : String
  oldReleaseID : String
  newReleaseID : String
  strategy : String
  createdAt : Option Int
  finishedAt : Option Int
deriving DecidableEq, Repr

/-- The controller-side durable state touched by `DeploymentRepo.Add`:
the `deployments` table rows, the server clock used for the
server-assigned `created_at`, and the `que` work queue (each item the
deployment id carried by the enqueued job's args). -/
structure ControllerDB where
  deployments : List Deployment
  now : Int
  queue : List String
deriving DecidableEq, Repr

/-- `DeploymentRepo.Add`.  Parameters abstract the collaborators that are
not part of this file's sources: `clean` is `postgres.CleanUUID` (a pure
string normalisation), `freshID` the value `random.UUID()` would produce,
and `insertErr` / `enqueueErr` the outcomes of the `INSERT … RETURNING
created_at` and of `que.Enqueue`.  Returns the new durable state, the
final value of the caller's `*ct.Deployment` (the source mutates it in
place), and the returned error.  Order of effects, as in the source:
assign `ID` when empty; insert the row and scan `created_at` into the
struct; rewrite `ID`, `OldReleaseID`, `NewReleaseID` with `CleanUUID`;
enqueue one `Deployment` job whose args carry the id.  An enqueue failure
is returned after the insert, which is not rolled back. -/
def addDeployment (clean : String → String) (freshID : String)
    (db : ControllerDB) (insertErr enqueueErr : Option String)
    (d : Deployment) : ControllerDB × Deployment × Option String :=
  let d0 := if d.id = "" then { d with id := freshID } else d
  match insertErr with
  | some e => (db, d0, some e)
  | none =>
    let row := { d0 with createdAt := some db.now }
    let db1 := { db with deployments := db.deployments ++ [row] }
    let d1 := { row with id := clean row.id
                         oldReleaseID := clean row.oldReleaseID
                         newReleaseID := clean row.newReleaseID }
    match enqueueErr with
    | some e => (db1, d1, some e)
    | none => ({ db1 with queue := db1.queue ++ [d1.id] }, d1, none)

/-! ## Lemmas about the map embedding -/

theorem mapGet_mapSet_self (m : FMap) (k : String) (v : Int) :
    mapGet (mapSet m k v) k = v := by
  induction m with
  | nil => simp [mapSet, mapGet]
  | cons p rest ih =>
    by_cases h : p.1 = k
    · simp [mapSet, mapGet, h]
    · simp [mapSet, mapGet, h, ih]

theorem mapGet_mapSet_ne (m : FMap) (k k' : String) (v : Int) (h : k' ≠ k) :
    mapGet (mapSet m k v) k' = mapGet m k' := by
  have h' : k ≠ k' := Ne.symm h
  induction m with
  | nil => simp [mapSet, mapGet, h']
  | cons p rest ih =>
    by_cases hp : p.1 = k
    · simp [mapSet, mapGet, hp, h']
    · simp [mapSet, mapGet, hp, ih]

theorem mapGet_incKey (m : FMap) (k k' : String) :
    mapGet (incKey m k) k' = mapGet m k' + (if k = k' then 1 else 0) := by
  by_cases h : k = k'
  · subst h; simp [incKey, mapGet_mapSet_self]
  · simp [incKey, h, mapGet_mapSet_ne m k k' _ (Ne.symm h)]

theorem mapGet_decKey (m : FMap) (k k' : String) :
    mapGet (decKey m k) k' = mapGet m k' - (if k = k' then 1 else 0) := by
  by_cases h : k = k'
  · subst h; simp [decKey, mapGet_mapSet_self]
  · simp [decKey, h, mapGet_mapSet_ne m k k' _ (Ne.symm h)]

theorem countFor_eq_zero (procs : List (String × Nat)) (t : String)
    (h : t ∉ procs.map Prod.fst) : countFor procs t = 0 := by
  induction procs with
  | nil => rfl
  | cons p rest ih =>
    simp only [List.map_cons, List.mem_cons] at h
    push_neg at h
    have h1 : p.1 ≠ t := Ne.symm h.1
    simp [countFor, h1, ih h.2]

theorem countFor_eq_of_mem (procs : List (String × Nat)) (t : String) (N : Nat)
    (hd : distinctKeys procs) (hm : (t, N) ∈ procs) : countFor procs t = N := by
  induction procs with
  | nil => cases hm
  | cons p rest ih =>
    rw [distinctKeys, List.map_cons, List.nodup_cons] at hd
    rcases List.mem_cons.mp hm with h | h
    · subst h
      simp [countFor, countFor_eq_zero rest t hd.1]
    · have hne : p.1 ≠ t := by
        intro he
        exact hd.1 (he ▸ List.mem_map.mpr ⟨(t, N), h, rfl⟩)
      simp [countFor, hne, ih hd.2 h]

theorem mapGet_toFMap (procs : List (String × Nat)) (t : String) (N : Nat)
    (hd : distinctKeys procs) (hm : (t, N) ∈ procs) :
    mapGet (toFMap procs) t = (N : Int) := by
  induction procs with
  | nil => cases hm
  | cons p rest ih =>
    rw [distinctKeys, List.map_cons, List.nodup_cons] at hd
    rcases List.mem_cons.mp hm with h | h
    · subst h; simp [toFMap, mapGet]
    · have hne : p.1 ≠ t := by
        intro he
        exact hd.1 (he ▸ List.mem_map.mpr ⟨(t, N), h, rfl⟩)
      simpa [toFMap, mapGet, hne] using ih hd.2 h

/-! ## All-success runs of the strategy -/

/-- The four operations of one successful unit swap of type `typ`, with
`nf` / `of` the formation contents written by the two puts. -/
def iterChunk (a nr or typ : String) (nf of : FMap) : List Action :=
  [Action.putFormation a nr nf, Action.waitJobEvents typ "up" 1,
   Action.putFormation a or of, Action.waitJobEvents typ "down" 1]

theorem runIter_allOk (a nr or typ : String) (s : EngineState) :
    runIter allOk a nr or typ s =
      ({ newF := incKey s.newF typ, oldF := decKey s.oldF typ,
         trace := s.trace ++
           iterChunk a nr or typ (incKey s.newF typ) (decKey s.oldF typ),
         opIdx := s.opIdx + 4 }, none) := by
  simp [runIter, allOk, iterChunk]

theorem runType_allOk_err (a nr or typ : String) (n : Nat) (s : EngineState) :
    (runType allOk a nr or typ n s).2 = none := by
  induction n generalizing s with
  | zero => rfl
  | succ n ih =>
    simp only [runType, runIter_allOk]
    exact ih _

theorem runType_allOk_newF (a nr or typ : String) (n : Nat) (s : EngineState)
    (t : String) :
    mapGet (runType allOk a nr or typ n s).1.newF t =
      mapGet s.newF t + (if typ = t then (n : Int) else 0) := by
  induction n generalizing s with
  | zero => simp [runType]
  | succ n ih =>
    simp only [runType, runIter_allOk]
    rw [ih]
    simp only [mapGet_incKey]
    by_cases h : typ = t <;> simp [h] <;> omega

theorem runType_allOk_oldF (a nr or typ : String) (n : Nat) (s : EngineState)
    (t : String) :
    mapGet (runType allOk a nr or typ n s).1.oldF t =
      mapGet s.oldF t - (if typ = t then (n : Int) else 0) := by
  induction n generalizing s with
  | zero => simp [runType]
  | succ n ih =>
    simp only [runType, runIter_allOk]
    rw [ih]
    simp only [mapGet_decKey]
    by_cases h : typ = t <;> simp [h] <;> omega

theorem runType_allOk_count_wait (a nr or typ : String) (n : Nat)
    (s : EngineState) (t st : String) :
    ((runType allOk a nr or typ n s).1.trace.count
        (Action.waitJobEvents t st 1)) =
      s.trace.count (Action.waitJobEvents t st 1) +
        (if typ = t ∧ (st = "up" ∨ st = "down") then n else 0) := by
  induction n generalizing s with
  | zero => simp [runType]
  | succ n ih =>
    simp only [runType, runIter_allOk]
    rw [ih]
    simp only [List.count_append, iterChunk, List.count_cons, List.count_nil]
    by_cases h : typ = t
    · subst h
      by_cases hu : st = "up"
      · simp [hu]; omega
      · by_cases hd : st = "down"
        · simp [hu, hd]; omega
        · simp [hu, hd]
          exact ⟨Ne.symm hd, Ne.symm hu⟩
    · simp [h, Ne.symm h]

theorem runType_allOk_opIdx (a nr or typ : String) (n : Nat) (s : EngineState) :
    (runType allOk a nr or typ n s).1.opIdx = s.opIdx + 4 * n := by
  induction n generalizing s with
  | zero => simp [runType]
  | succ n ih =>
    simp only [runType, runIter_allOk]
    rw [ih]
    simp
    omega

theorem runType_allOk_length (a nr or typ : String) (n : Nat) (s : EngineState) :
    (runType allOk a nr or typ n s).1.trace.length = s.trace.length + 4 * n := by
  induction n generalizing s with
  | zero => simp [runType]
  | succ n ih =>
    simp only [runType, runIter_allOk]
    rw [ih]
    simp [iterChunk]
    omega

theorem runLoop_allOk_cons (a nr or typ : String) (num : Nat)
    (rest : List (String × Nat)) (s : EngineState) :
    runLoop allOk a nr or ((typ, num) :: rest) s =
      runLoop allOk a nr or rest (runType allOk a nr or typ num s).1 := by
  have h := runType_allOk_err a nr or typ num s
  rcases hr : runType allOk a nr or typ num s with ⟨s1, r⟩
  rw [hr] at h
  simp only at h
  subst h
  simp [runLoop, hr]

theorem runLoop_allOk_err (a nr or : String) (procs : List (String × Nat))
    (s : EngineState) : (runLoop allOk a nr or procs s).2 = none := by
  induction procs generalizing s with
  | nil => rfl
  | cons p rest ih =>
    rw [show p = (p.1, p.2) from rfl, runLoop_allOk_cons]
    exact ih _

theorem runLoop_allOk_newF (a nr or : String) (procs : List (String × Nat))
    (s : EngineState) (t : String) :
    mapGet (runLoop allOk a nr or procs s).1.newF t =
      mapGet s.newF t + (countFor procs t : Int) := by
  induction procs generalizing s with
  | nil => simp [runLoop, countFor]
  | cons p rest ih =>
    rw [show p = (p.1, p.2) from rfl, runLoop_allOk_cons, ih,
      runType_allOk_newF]
    simp only [countFor]
    by_cases h : p.1 = t <;> simp [h] <;> omega

theorem runLoop_allOk_oldF (a nr or : String) (procs : List (String × Nat))
    (s : EngineState) (t : String) :
    mapGet (runLoop allOk a nr or procs s).1.oldF t =
      mapGet s.oldF t - (countFor procs t : Int) := by
  induction procs generalizing s with
  | nil => simp [runLoop, countFor]
  | cons p rest ih =>
    rw [show p = (p.1, p.2) from rfl, runLoop_allOk_cons, ih,
      runType_allOk_oldF]
    simp only [countFor]
    by_cases h : p.1 = t <;> simp [h] <;> omega

theorem runLoop_allOk_count_wait (a nr or : String)
    (procs : List (String × Nat)) (s : EngineState) (t st : String) :
    ((runLoop allOk a nr or procs s).1.trace.count
        (Action.waitJobEvents t st 1)) =
      s.trace.count (Action.waitJobEvents t st 1) +
        (if st = "up" ∨ st = "down" then countFor procs t else 0) := by
  induction procs generalizing s with
  | nil => simp [runLoop, countFor]
  | cons p rest ih =>
    rw [show p = (p.1, p.2) from rfl, runLoop_allOk_cons, ih,
      runType_allOk_count_wait]
    simp only [countFor]
    by_cases hst : st = "up" ∨ st = "down" <;> by_cases h : p.1 = t <;>
      simp [hst, h] <;> omega

theorem lastPut_append (rel : String) (init : FMap) (tr tr' : List Action) :
    lastPut rel init (tr ++ tr') = lastPut rel (lastPut rel init tr) tr' := by
  simp [lastPut, List.foldl_append]

theorem lastPut_iterChunk_new (a nr or typ : String) (init nf of : FMap)
    (hrel : nr ≠ or) :
    lastPut nr init (iterChunk a nr or typ nf of) = nf := by
  simp [lastPut, iterChunk, Ne.symm hrel]

theorem lastPut_iterChunk_old (a nr or typ : String) (init nf of : FMap) :
    lastPut or init (iterChunk a nr or typ nf of) = of := by
  simp [lastPut, iterChunk]

theorem runType_allOk_lastPut (a nr or typ : String) (n : Nat)
    (s : EngineState) (initN initO : FMap) (hrel : nr ≠ or)
    (hnew : lastPut nr initN s.trace = s.newF)
    (hold : lastPut or initO s.trace = s.oldF) :
    lastPut nr initN (runType allOk a nr or typ n s).1.trace =
        (runType allOk a nr or typ n s).1.newF ∧
      lastPut or initO (runType allOk a nr or typ n s).1.trace =
        (runType allOk a nr or typ n s).1.oldF := by
  induction n generalizing s with
  | zero => exact ⟨hnew, hold⟩
  | succ n ih =>
    simp only [runType, runIter_allOk]
    refine ih _ ?_ ?_
    · simp [lastPut_append, hnew, lastPut_iterChunk_new a nr or typ _ _ _ hrel]
    · simp [lastPut_append, hold, lastPut_iterChunk_old]

theorem runLoop_allOk_lastPut (a nr or : String) (procs : List (String × Nat))
    (s : EngineState) (initN initO : FMap) (hrel : nr ≠ or)
    (hnew : lastPut nr initN s.trace = s.newF)
    (hold : lastPut or initO s.trace = s.oldF) :
    lastPut nr initN (runLoop allOk a nr or procs s).1.trace =
        (runLoop allOk a nr or procs s).1.newF ∧
      lastPut or initO (runLoop allOk a nr or procs s).1.trace =
        (runLoop allOk a nr or procs s).1.oldF := by
  induction procs generalizing s with
  | nil => exact ⟨hnew, hold⟩
  | cons p rest ih =>
    rw [show p = (p.1, p.2) from rfl, runLoop_allOk_cons]
    have h := runType_allOk_lastPut a nr or p.1 p.2 s initN initO hrel hnew hold
    exact ih _ h.1 h.2

/-! ## Claim theorems for the strategy -/

/-- C1: in an all-success run of `oneByOne` on an old formation whose
entry for process type `t` is `N` (Go map keys are distinct), the
strategy returns no error, issues exactly `N` waits for one `up` event of
type `t` on the new release and exactly `N` waits for one `down` event of
type `t` on the old release (one per iteration, in the order increment /
overwrite-new / wait-up / decrement / overwrite-old / wait-down fixed by
`runIter`), and ends with the new release's stored count for `t` equal to
`N` and the old release's equal to 0. -/
theorem one_by_one_swaps_each_unit (a nr or t : String) (N : Nat)
    (procs : List (String × Nat)) (hrel : nr ≠ or)
    (hd : distinctKeys procs) (hm : (t, N) ∈ procs) :
    (oneByOne allOk a nr or procs).2 = none ∧
    (oneByOne allOk a nr or procs).1.trace.count
        (Action.waitJobEvents t "up" 1) = N ∧
    (oneByOne allOk a nr or procs).1.trace.count
        (Action.waitJobEvents t "down" 1) = N ∧
    mapGet (lastPut nr [] (oneByOne allOk a nr or procs).1.trace) t = N ∧
    mapGet (lastPut or (toFMap procs) (oneByOne allOk a nr or procs).1.trace) t
      = 0 := by
  have hc := countFor_eq_of_mem procs t N hd hm
  have hinit := mapGet_toFMap procs t N hd hm
  have hsync := runLoop_allOk_lastPut a nr or procs (initState procs) []
    (toFMap procs) hrel rfl rfl
  simp only [oneByOne, allOk]
  refine ⟨runLoop_allOk_err a nr or procs _, ?_, ?_, ?_, ?_⟩
  · rw [runLoop_allOk_count_wait]
    simp [initState, hc]
  · rw [runLoop_allOk_count_wait]
    simp [initState, hc]
  · rw [hsync.1, runLoop_allOk_newF]
    simp [initState, mapGet, hc]
  · rw [hsync.2, runLoop_allOk_oldF]
    simp [initState, hinit, hc]

/-- Witness for C1 at the concrete formation `{web: 2}`. -/
theorem one_by_one_swaps_each_unit_witness :
    (oneByOne allOk "app" "r2" "r1" [("web", 2)]).2 = none ∧
    (oneByOne allOk "app" "r2" "r1" [("web", 2)]).1.trace.count
        (Action.waitJobEvents "web" "up" 1) = 2 ∧
    (oneByOne allOk "app" "r2" "r1" [("web", 2)]).1.trace.count
        (Action.waitJobEvents "web" "down" 1) = 2 ∧
    mapGet (lastPut "r2" []
        (oneByOne allOk "app" "r2" "r1" [("web", 2)]).1.trace) "web" = 2 ∧
    mapGet (lastPut "r1" (toFMap [("web", 2)])
        (oneByOne allOk "app" "r2" "r1" [("web", 2)]).1.trace) "web" = 0 :=
  one_by_one_swaps_each_unit "app" "r2" "r1" "web" 2 [("web", 2)]
    (by decide) (by decide) (by decide)

/-- Recognizer for the deployment-event emission action (a send on the
strategy's `events` channel). -/
def isEmitEvent : Action → Bool
  | Action.emitDeploymentEvent .. => true
  | _ => false

theorem runIter_no_emit (o : Oracle) (a nr or typ : String) (s : EngineState) :
    ((runIter o a nr or typ s).1.trace.countP isEmitEvent) =
      s.trace.countP isEmitEvent := by
  simp only [runIter]
  cases o s.opIdx <;> cases o (s.opIdx + 1) <;> cases o (s.opIdx + 1 + 1) <;>
    cases o (s.opIdx + 1 + 1 + 1) <;>
      simp [List.countP_append, isEmitEvent]

theorem runType_no_emit (o : Oracle) (a nr or typ : String) (n : Nat)
    (s : EngineState) :
    ((runType o a nr or typ n s).1.trace.countP isEmitEvent) =
      s.trace.countP isEmitEvent := by
  induction n generalizing s with
  | zero => rfl
  | succ n ih =>
    simp only [runType]
    rcases hr : runIter o a nr or typ s with ⟨s1, r⟩
    have h1 : s1.trace.countP isEmitEvent = s.trace.countP isEmitEvent := by
      have := runIter_no_emit o a nr or typ s
      rw [hr] at this
      exact this
    cases r
    · simp only []
      rw [ih s1, h1]
    · exact h1

theorem runLoop_no_emit (o : Oracle) (a nr or : String)
    (procs : List (String × Nat)) (s : EngineState) :
    ((runLoop o a nr or procs s).1.trace.countP isEmitEvent) =
      s.trace.countP isEmitEvent := by
  induction procs generalizing s with
  | nil => rfl
  | cons p rest ih =>
    simp only [runLoop]
    rcases hr : runType o a nr or p.1 p.2 s with ⟨s1, r⟩
    have h1 : s1.trace.countP isEmitEvent = s.trace.countP isEmitEvent := by
      have := runType_no_emit o a nr or p.1 p.2 s
      rw [hr] at this
      exact this
    cases r
    · simp only []
      rw [ih s1, h1]
    · exact h1

/-- C2: `oneByOne` never emits a `DeploymentEvent` — the strategy's
`events chan<- deployer.DeploymentEvent` parameter is never written in the
source — so a one-at-a-time deployment of `{web: 3}` produces 0
`DeploymentEvent`s, not the 6 (3 `up`, 3 `down`) the claim requires. -/
theorem one_by_one_emits_no_deployment_events :
    (∀ (o : Oracle) (a nr or : String) (procs : List (String × Nat)),
      ((oneByOne o a nr or procs).1.trace.countP isEmitEvent) = 0) ∧
    ((oneByOne allOk "app" "r2" "r1"
        [("web", 3)]).1.trace.countP isEmitEvent) ≠ 6 := by
  have hall : ∀ (o : Oracle) (a nr or : String) (procs : List (String × Nat)),
      ((oneByOne o a nr or procs).1.trace.countP isEmitEvent) = 0 := by
    intro o a nr or procs
    simp only [oneByOne]
    cases o 0 <;> cases o 1 <;>
      simp [runLoop_no_emit, initState]
  refine ⟨hall, ?_⟩
  rw [hall]
  decide

/-! ## The capacity invariant of the one-at-a-time swap -/

theorem prefix_append_cases {α : Type} {p l1 l2 : List α} (h : p <+: l1 ++ l2) :
    p <+: l1 ∨ ∃ q, q <+: l2 ∧ p = l1 ++ q := by
  by_cases hl : p.length ≤ l1.length
  · exact Or.inl (List.prefix_of_prefix_length_le h (List.prefix_append l1 l2) hl)
  · right
    have h1 : l1 <+: p := by
      rcases h with ⟨t, ht⟩
      exact List.prefix_of_prefix_length_le (ht ▸ List.prefix_append l1 l2)
        (ht ▸ List.prefix_append p t) (le_of_not_le hl)
    rcases h1 with ⟨q, hq⟩
    refine ⟨q, ?_, hq.symm⟩
    rcases h with ⟨t, ht⟩
    rw [← hq, List.append_assoc] at ht
    exact ⟨t, List.append_cancel_left ht⟩

theorem prefix_four_cases {α : Type} {q : List α} {a b c d : α}
    (h : q <+: [a, b, c, d]) :
    q = [] ∨ q = [a] ∨ q = [a, b] ∨ q = [a, b, c] ∨ q = [a, b, c, d] := by
  rcases q with _ | ⟨x1, q⟩
  · exact Or.inl rfl
  rw [List.cons_prefix_cons] at h
  obtain ⟨rfl, h⟩ := h
  rcases q with _ | ⟨x2, q⟩
  · simp
  rw [List.cons_prefix_cons] at h
  obtain ⟨rfl, h⟩ := h
  rcases q with _ | ⟨x3, q⟩
  · simp
  rw [List.cons_prefix_cons] at h
  obtain ⟨rfl, h⟩ := h
  rcases q with _ | ⟨x4, q⟩
  · simp
  rw [List.cons_prefix_cons] at h
  obtain ⟨rfl, h⟩ := h
  rw [List.prefix_nil] at h
  simp [h]

/-- The total desired capacity the formation store holds for type `t`
after the writes of trace prefix `p`: the stored count for `t` in the new
release's formation plus the stored count in the old release's (the old
release's store starts at `initO`, the new one's empty). -/
def storeSum (t nr or : String) (initO : FMap) (p : List Action) : Int :=
  mapGet (lastPut nr [] p) t + mapGet (lastPut or initO p) t

/-- Invariant carried between unit swaps: the stores agree with the
strategy's local maps, the current total for `t` is `N`, and every
write-prefix so far kept the total at `N` or `N + 1`. -/
def SwapInv (t nr or : String) (initO : FMap) (N : Int) (s : EngineState) : Prop :=
  lastPut nr [] s.trace = s.newF ∧
  lastPut or initO s.trace = s.oldF ∧
  mapGet s.newF t + mapGet s.oldF t = N ∧
  ∀ p, p <+: s.trace →
    storeSum t nr or initO p = N ∨ storeSum t nr or initO p = N + 1

theorem runIter_allOk_swapInv (a nr or typ t : String) (initO : FMap) (N : Int)
    (s : EngineState) (hrel : nr ≠ or) (h : SwapInv t nr or initO N s) :
    SwapInv t nr or initO N (runIter allOk a nr or typ s).1 := by
  obtain ⟨hN, hO, hsum, hpre⟩ := h
  have hbeq1 : (nr == or) = false := by simp [hrel]
  have hbeq2 : (or == nr) = false := by simp [Ne.symm hrel]
  rw [runIter_allOk]
  refine ⟨?_, ?_, ?_, ?_⟩
  · simp [lastPut_append, hN, lastPut_iterChunk_new a nr or typ _ _ _ hrel]
  · simp [lastPut_append, hO, lastPut_iterChunk_old]
  · simp only [mapGet_incKey, mapGet_decKey]
    by_cases ht : typ = t <;> simp [ht] <;> omega
  · intro p hp
    rcases prefix_append_cases hp with hp | ⟨q, hq, rfl⟩
    · exact hpre p hp
    rcases prefix_four_cases hq with rfl | rfl | rfl | rfl | rfl
    · simpa using hpre s.trace List.prefix_rfl
    · simp only [storeSum, lastPut_append, hN, hO]
      simp only [lastPut, List.foldl_cons, List.foldl_nil, beq_self_eq_true,
        if_true, hbeq1, hbeq2, Bool.false_eq_true, if_false]
      rw [mapGet_incKey]
      by_cases ht : typ = t <;> simp [ht] <;> omega
    · simp only [storeSum, lastPut_append, hN, hO]
      simp only [lastPut, List.foldl_cons, List.foldl_nil, beq_self_eq_true,
        if_true, hbeq1, hbeq2, Bool.false_eq_true, if_false]
      rw [mapGet_incKey]
      by_cases ht : typ = t <;> simp [ht] <;> omega
    · simp only [storeSum, lastPut_append, hN, hO]
      simp only [lastPut, List.foldl_cons, List.foldl_nil, beq_self_eq_true,
        if_true, hbeq1, hbeq2, Bool.false_eq_true, if_false]
      rw [mapGet_incKey, mapGet_decKey]
      by_cases ht : typ = t <;> simp [ht] <;> omega
    · simp only [storeSum, lastPut_append, hN, hO]
      simp only [lastPut, List.foldl_cons, List.foldl_nil, beq_self_eq_true,
        if_true, hbeq1, hbeq2, Bool.false_eq_true, if_false]
      rw [mapGet_incKey, mapGet_decKey]
      by_cases ht : typ = t <;> simp [ht] <;> omega

theorem runType_allOk_swapInv (a nr or typ t : String) (initO : FMap) (N : Int)
    (n : Nat) (s : EngineState) (hrel : nr ≠ or)
    (h : SwapInv t nr or initO N s) :
    SwapInv t nr or initO N (runType allOk a nr or typ n s).1 := by
  induction n generalizing s with
  | zero => exact h
  | succ n ih =>
    simp only [runType, runIter_allOk]
    refine ih _ ?_
    have h' := runIter_allOk_swapInv a nr or typ t initO N s hrel h
    rw [runIter_allOk] at h'
    exact h'

theorem runLoop_allOk_swapInv (a nr or t : String) (initO : FMap) (N : Int)
    (procs : List (String × Nat)) (s : EngineState) (hrel : nr ≠ or)
    (h : SwapInv t nr or initO N s) :
    SwapInv t nr or initO N (runLoop allOk a nr or procs s).1 := by
  induction procs generalizing s with
  | nil => exact h
  | cons p rest ih =>
    rw [show p = (p.1, p.2) from rfl, runLoop_allOk_cons]
    exact ih _ (runType_allOk_swapInv a nr or p.1 t initO N p.2 s hrel h)

/-- C3: during an all-success one-at-a-time run whose old formation gives
type `t` the count `N`, every prefix of the write trace — i.e. every
observable store state between formation writes — leaves the new
release's stored count for `t` plus the old release's at `N` or `N + 1`;
the excess unit is the single in-flight replacement. -/
theorem one_by_one_capacity_invariant (a nr or t : String) (N : Nat)
    (procs : List (String × Nat)) (hrel : nr ≠ or)
    (hd : distinctKeys procs) (hm : (t, N) ∈ procs) :
    ∀ p, p <+: (oneByOne allOk a nr or procs).1.trace →
      storeSum t nr or (toFMap procs) p = N ∨
      storeSum t nr or (toFMap procs) p = N + 1 := by
  have hinit : SwapInv t nr or (toFMap procs) N (initState procs) := by
    refine ⟨rfl, rfl, ?_, ?_⟩
    · simp [initState, mapGet, mapGet_toFMap procs t N hd hm]
    · intro p hp
      rw [show (initState procs).trace = [] from rfl, List.prefix_nil] at hp
      subst hp
      left
      simp [storeSum, lastPut, mapGet, mapGet_toFMap procs t N hd hm]
  have h := runLoop_allOk_swapInv a nr or t (toFMap procs) N procs
    (initState procs) hrel hinit
  simpa only [oneByOne, allOk] using h.2.2.2

/-- Witness for C3 at the formation `{web: 1}`, checking the prefix that
stops right after the first overwrite of the new release's formation
(total `N + 1 = 2`). -/
theorem one_by_one_capacity_invariant_witness :
    storeSum "web" "r2" "r1" (toFMap [("web", 1)])
        [Action.putFormation "app" "r2" [("web", 1)]] = 1 ∨
    storeSum "web" "r2" "r1" (toFMap [("web", 1)])
        [Action.putFormation "app" "r2" [("web", 1)]] = 1 + 1 :=
  one_by_one_capacity_invariant "app" "r2" "r1" "web" 1 [("web", 1)]
    (by decide) (by decide) (by decide)
    [Action.putFormation "app" "r2" [("web", 1)]] (by decide)

/-! ## Iteration order of the outer loop -/

/-- The subsequence of a trace consisting of the waits for events of
process type `t`. -/
def waitsFor (t : String) (tr : List Action) : List Action :=
  tr.filter (fun a =>
    match a with
    | Action.waitJobEvents typ _ _ => typ == t
    | _ => false)

/-- The alternating up/down confirmation sequence for `n` units of
type `t`. -/
def altWaits (t : String) : Nat → List Action
  | 0 => []
  | n + 1 => Action.waitJobEvents t "up" 1 ::
      Action.waitJobEvents t "down" 1 :: altWaits t n

theorem altWaits_add (t : String) (a b : Nat) :
    altWaits t (a + b) = altWaits t a ++ altWaits t b := by
  induction a with
  | zero => simp [altWaits]
  | succ a ih => simp [altWaits, Nat.succ_add, ih]

theorem waitsFor_append (t : String) (tr tr' : List Action) :
    waitsFor t (tr ++ tr') = waitsFor t tr ++ waitsFor t tr' := by
  simp [waitsFor, List.filter_append]

theorem waitsFor_iterChunk (a nr or typ t : String) (nf of : FMap) :
    waitsFor t (iterChunk a nr or typ nf of) =
      (if typ = t then
        [Action.waitJobEvents t "up" 1, Action.waitJobEvents t "down" 1]
      else []) := by
  by_cases h : typ = t
  · subst h; simp [waitsFor, iterChunk]
  · simp [waitsFor, iterChunk, h]

theorem runType_allOk_waitsFor (a nr or typ t : String) (n : Nat)
    (s : EngineState) :
    waitsFor t (runType allOk a nr or typ n s).1.trace =
      waitsFor t s.trace ++ (if typ = t then altWaits t n else []) := by
  induction n generalizing s with
  | zero => simp [runType, altWaits]
  | succ n ih =>
    simp only [runType, runIter_allOk]
    rw [ih]
    simp only [waitsFor_append, waitsFor_iterChunk]
    by_cases h : typ = t <;> simp [h, altWaits]

theorem runLoop_allOk_waitsFor (a nr or t : String)
    (procs : List (String × Nat)) (s : EngineState) :
    waitsFor t (runLoop allOk a nr or procs s).1.trace =
      waitsFor t s.trace ++ altWaits t (countFor procs t) := by
  induction procs generalizing s with
  | nil => simp [runLoop, countFor, altWaits]
  | cons p rest ih =>
    rw [show p = (p.1, p.2) from rfl, runLoop_allOk_cons, ih,
      runType_allOk_waitsFor]
    simp only [countFor]
    by_cases h : p.1 = t
    · simp [h, altWaits_add]
    · simp [h]

theorem countFor_perm (t : String) {procs1 procs2 : List (String × Nat)}
    (h : procs1.Perm procs2) : countFor procs1 t = countFor procs2 t := by
  induction h with
  | nil => rfl
  | cons x _ ih => simp [countFor, ih]
  | swap x y l => simp [countFor]; omega
  | trans _ _ ih1 ih2 => exact ih1.trans ih2

/-- C6 is false as stated: the outer loop of `oneByOne` ranges over a Go
map, whose iteration order is not deterministic.  The same starting
formation `{a: 1, b: 1}` (one map, two possible entry orders) with the
same all-success event stream yields two different sequences of formation
mutations. -/
theorem one_by_one_order_nondeterministic :
    ([(("a" : String), (1 : Nat)), ("b", 1)]).Perm [("b", 1), ("a", 1)] ∧
    (oneByOne allOk "app" "r2" "r1" [("a", 1), ("b", 1)]).1.trace ≠
      (oneByOne allOk "app" "r2" "r1" [("b", 1), ("a", 1)]).1.trace := by
  constructor
  · exact List.Perm.swap _ _ _
  · decide

/-- C6 (amended): the order in which `oneByOne` visits process types is
the Go map iteration order, which is not deterministic, so two runs on
the same formation may issue different mutation sequences; what is
order-independent is each type's own confirmation sequence: any two
all-success runs over entry lists that are permutations of the same
formation issue the identical alternating up/down wait sequence for every
process type `t`. -/
theorem one_by_one_waits_order_independent (a nr or t : String)
    (procs1 procs2 : List (String × Nat)) (h : procs1.Perm procs2) :
    waitsFor t (oneByOne allOk a nr or procs1).1.trace =
      waitsFor t (oneByOne allOk a nr or procs2).1.trace := by
  simp only [oneByOne, allOk, runLoop_allOk_waitsFor]
  simp [initState, waitsFor, countFor_perm t h]

/-- Witness for the amended C6 on the two entry orders of `{a: 1, b: 1}`. -/
theorem one_by_one_waits_order_independent_witness :
    waitsFor "a" (oneByOne allOk "app" "r2" "r1"
        [("a", 1), ("b", 1)]).1.trace =
      waitsFor "a" (oneByOne allOk "app" "r2" "r1"
        [("b", 1), ("a", 1)]).1.trace :=
  one_by_one_waits_order_independent "app" "r2" "r1" "a"
    [("a", 1), ("b", 1)] [("b", 1), ("a", 1)] (List.Perm.swap _ _ _)


/-! ## Failing runs: fail-fast without rollback -/

theorem runType_allOk_trace_ext (a nr or typ : String) (n : Nat)
    (s : EngineState) :
    ∃ ext, (runType allOk a nr or typ n s).1.trace = s.trace ++ ext := by
  induction n generalizing s with
  | zero => exact ⟨[], by simp [runType]⟩
  | succ n ih =>
    simp only [runType, runIter_allOk]
    obtain ⟨ext, hext⟩ := ih
      { newF := incKey s.newF typ, oldF := decKey s.oldF typ,
        trace := s.trace ++
          iterChunk a nr or typ (incKey s.newF typ) (decKey s.oldF typ),
        opIdx := s.opIdx + 4 }
    exact ⟨iterChunk a nr or typ (incKey s.newF typ) (decKey s.oldF typ) ++ ext,
      by simpa [List.append_assoc] using hext⟩

theorem runLoop_allOk_trace_ext (a nr or : String)
    (procs : List (String × Nat)) (s : EngineState) :
    ∃ ext, (runLoop allOk a nr or procs s).1.trace = s.trace ++ ext := by
  induction procs generalizing s with
  | nil => exact ⟨[], by simp [runLoop]⟩
  | cons p rest ih =>
    rw [show p = (p.1, p.2) from rfl, runLoop_allOk_cons]
    obtain ⟨e1, he1⟩ := runType_allOk_trace_ext a nr or p.1 p.2 s
    obtain ⟨e2, he2⟩ := ih (runType allOk a nr or p.1 p.2 s).1
    exact ⟨e1 ++ e2, by rw [he2, he1, List.append_assoc]⟩

theorem runLoop_allOk_opIdx_len (a nr or : String)
    (procs : List (String × Nat)) (s : EngineState)
    (h : s.opIdx = s.trace.length + 2) :
    (runLoop allOk a nr or procs s).1.opIdx =
      (runLoop allOk a nr or procs s).1.trace.length + 2 := by
  induction procs generalizing s with
  | nil => simpa [runLoop] using h
  | cons p rest ih =>
    rw [show p = (p.1, p.2) from rfl, runLoop_allOk_cons]
    refine ih _ ?_
    rw [runType_allOk_opIdx, runType_allOk_length, h]
    omega

theorem runIter_failAt (a nr or typ : String) (k : Nat) (e : StratErr)
    (s : EngineState) (hk : s.opIdx ≤ k) :
    (s.opIdx + 4 ≤ k →
      runIter (failAt k e) a nr or typ s = runIter allOk a nr or typ s) ∧
    (k < s.opIdx + 4 →
      (runIter (failAt k e) a nr or typ s).2 = some e ∧
      (runIter (failAt k e) a nr or typ s).1.trace =
        s.trace ++ (iterChunk a nr or typ (incKey s.newF typ)
          (decKey s.oldF typ)).take (k - s.opIdx)) := by
  constructor
  · intro h
    have h0 : ¬ s.opIdx = k := by omega
    have h1 : ¬ s.opIdx + 1 = k := by omega
    have h2 : ¬ s.opIdx + 1 + 1 = k := by omega
    have h3 : ¬ s.opIdx + 1 + 1 + 1 = k := by omega
    simp [runIter, failAt, allOk, h0, h1, h2, h3]
  · intro h
    have hcase : k = s.opIdx ∨ k = s.opIdx + 1 ∨ k = s.opIdx + 2 ∨
        k = s.opIdx + 3 := by omega
    rcases hcase with hc | hc | hc | hc
    · subst hc
      simp [runIter, failAt, iterChunk]
    · have h0 : ¬ s.opIdx = k := by omega
      subst hc
      simp [runIter, failAt, h0, iterChunk]
    · have h0 : ¬ s.opIdx = k := by omega
      have h1 : ¬ s.opIdx + 1 = k := by omega
      subst hc
      simp only [runIter, failAt, if_neg h0, if_neg h1]
      simp [iterChunk, show s.opIdx + 2 - s.opIdx = 2 by omega]
    · have h0 : ¬ s.opIdx = k := by omega
      have h1 : ¬ s.opIdx + 1 = k := by omega
      have h2 : ¬ s.opIdx + 1 + 1 = k := by omega
      subst hc
      simp only [runIter, failAt, if_neg h0, if_neg h1, if_neg h2]
      simp [iterChunk, show s.opIdx + 3 - s.opIdx = 3 by omega]


theorem iterChunk_length (a nr or typ : String) (nf of : FMap) :
    (iterChunk a nr or typ nf of).length = 4 := by
  simp [iterChunk]

theorem runLoop_allOk_opIdx_mono (a nr or : String)
    (procs : List (String × Nat)) (s : EngineState) :
    s.opIdx ≤ (runLoop allOk a nr or procs s).1.opIdx := by
  induction procs generalizing s with
  | nil => simp [runLoop]
  | cons p rest ih =>
    rw [show p = (p.1, p.2) from rfl, runLoop_allOk_cons]
    calc s.opIdx ≤ (runType allOk a nr or p.1 p.2 s).1.opIdx := by
          rw [runType_allOk_opIdx]; omega
      _ ≤ _ := ih _

theorem runType_failAt (a nr or typ : String) (k : Nat) (e : StratErr)
    (n : Nat) (s : EngineState) (hk : s.opIdx ≤ k)
    (hlen : s.opIdx = s.trace.length + 2) :
    ((runType allOk a nr or typ n s).1.opIdx ≤ k →
      runType (failAt k e) a nr or typ n s = runType allOk a nr or typ n s) ∧
    (k < (runType allOk a nr or typ n s).1.opIdx →
      (runType (failAt k e) a nr or typ n s).2 = some e ∧
      (runType (failAt k e) a nr or typ n s).1.trace =
        (runType allOk a nr or typ n s).1.trace.take (k - 2)) := by
  induction n generalizing s with
  | zero =>
    refine ⟨fun _ => rfl, fun h => ?_⟩
    simp only [runType] at h
    omega
  | succ n ih =>
    have hIter := runIter_failAt a nr or typ k e s hk
    by_cases hcase : s.opIdx + 4 ≤ k
    · have hEq := hIter.1 hcase
      simp only [runType, hEq, runIter_allOk]
      refine ih
        { newF := incKey s.newF typ, oldF := decKey s.oldF typ,
          trace := s.trace ++
            iterChunk a nr or typ (incKey s.newF typ) (decKey s.oldF typ),
          opIdx := s.opIdx + 4 } ?_ ?_
      · exact hcase
      · simp only [List.length_append, iterChunk_length]
        omega
    · have hFail := hIter.2 (by omega)
      constructor
      · intro hle
        rw [runType_allOk_opIdx] at hle
        omega
      · intro _
        rcases hr : runIter (failAt k e) a nr or typ s with ⟨sf, rf⟩
        rw [hr] at hFail
        obtain ⟨hrf, htr⟩ := hFail
        simp only at hrf
        subst hrf
        have hfl : runType (failAt k e) a nr or typ (n + 1) s = (sf, some e) := by
          simp only [runType, hr]
        rw [hfl]
        refine ⟨rfl, ?_⟩
        have hok : runType allOk a nr or typ (n + 1) s =
            runType allOk a nr or typ n
              { newF := incKey s.newF typ, oldF := decKey s.oldF typ,
                trace := s.trace ++
                  iterChunk a nr or typ (incKey s.newF typ) (decKey s.oldF typ),
                opIdx := s.opIdx + 4 } := by
          simp only [runType, runIter_allOk]
        rw [hok]
        obtain ⟨ext, hext⟩ := runType_allOk_trace_ext a nr or typ n
          { newF := incKey s.newF typ, oldF := decKey s.oldF typ,
            trace := s.trace ++
              iterChunk a nr or typ (incKey s.newF typ) (decKey s.oldF typ),
            opIdx := s.opIdx + 4 }
        rw [hext]
        simp only at htr
        rw [show sf.trace = (sf, some e).1.trace from rfl, htr, List.append_assoc,
          List.take_append_eq_append_take,
          List.take_of_length_le (by omega : s.trace.length ≤ k - 2),
          List.take_append_of_le_length
            (by rw [iterChunk_length]; omega :
              k - 2 - s.trace.length ≤
                (iterChunk a nr or typ (incKey s.newF typ)
                  (decKey s.oldF typ)).length),
          show k - 2 - s.trace.length = k - s.opIdx by omega]

theorem runLoop_failAt (a nr or : String) (k : Nat) (e : StratErr)
    (procs : List (String × Nat)) (s : EngineState) (hk : s.opIdx ≤ k)
    (hlen : s.opIdx = s.trace.length + 2) :
    ((runLoop allOk a nr or procs s).1.opIdx ≤ k →
      runLoop (failAt k e) a nr or procs s = runLoop allOk a nr or procs s) ∧
    (k < (runLoop allOk a nr or procs s).1.opIdx →
      (runLoop (failAt k e) a nr or procs s).2 = some e ∧
      (runLoop (failAt k e) a nr or procs s).1.trace =
        (runLoop allOk a nr or procs s).1.trace.take (k - 2)) := by
  induction procs generalizing s with
  | nil =>
    refine ⟨fun _ => rfl, fun h => ?_⟩
    simp only [runLoop] at h
    omega
  | cons p rest ih =>
    have hType := runType_failAt a nr or p.1 k e p.2 s hk hlen
    have hTidx : (runType allOk a nr or p.1 p.2 s).1.opIdx =
        s.opIdx + 4 * p.2 := runType_allOk_opIdx a nr or p.1 p.2 s
    have hTlen : (runType allOk a nr or p.1 p.2 s).1.opIdx =
        (runType allOk a nr or p.1 p.2 s).1.trace.length + 2 := by
      rw [runType_allOk_opIdx, runType_allOk_length]
      omega
    by_cases hcase : (runType allOk a nr or p.1 p.2 s).1.opIdx ≤ k
    · have hEq := hType.1 hcase
      have hloopEq : runLoop (failAt k e) a nr or (p :: rest) s =
          runLoop (failAt k e) a nr or rest
            (runType allOk a nr or p.1 p.2 s).1 := by
        rw [show p = (p.1, p.2) from rfl]
        simp only [runLoop, hEq]
        have herr := runType_allOk_err a nr or p.1 p.2 s
        rcases hr : runType allOk a nr or p.1 p.2 s with ⟨s1, r⟩
        rw [hr] at herr
        simp only at herr
        subst herr
        simp
      rw [hloopEq, show p = (p.1, p.2) from rfl, runLoop_allOk_cons]
      exact ih (runType allOk a nr or p.1 p.2 s).1 hcase hTlen
    · have hFail := hType.2 (by omega)
      have hloopFail : runLoop (failAt k e) a nr or (p :: rest) s =
          ((runType (failAt k e) a nr or p.1 p.2 s).1, some e) := by
        rw [show p = (p.1, p.2) from rfl]
        rcases hr : runType (failAt k e) a nr or p.1 p.2 s with ⟨sf, rf⟩
        rw [hr] at hFail
        obtain ⟨hrf, _⟩ := hFail
        simp only at hrf
        subst hrf
        simp [runLoop, hr]
      constructor
      · intro hle
        have := runLoop_allOk_opIdx_mono a nr or rest
          (runType allOk a nr or p.1 p.2 s).1
        rw [show p = (p.1, p.2) from rfl, runLoop_allOk_cons] at hle
        omega
      · intro _
        rw [hloopFail]
        refine ⟨rfl, ?_⟩
        rw [show p = (p.1, p.2) from rfl, runLoop_allOk_cons]
        obtain ⟨ext, hext⟩ := runLoop_allOk_trace_ext a nr or rest
          (runType allOk a nr or p.1 p.2 s).1
        rw [hext,
          List.take_append_of_le_length
            (by omega : k - 2 ≤
              (runType allOk a nr or p.1 p.2 s).1.trace.length)]
        exact hFail.2


/-- C7: if the `k`-th operation of a run fails (a `PutFormation` error, a
`GetFormation` or stream-open error, or a wait ending in stream failure or
crash), `oneByOne` returns exactly that error, and its trace of issued
operations is precisely the prefix of the all-success trace completed
before the failing step — no further formation mutation is issued and no
compensating (rollback) mutation is appended, so every formation write
completed before the failure remains as written; if the failing index lies
beyond the run's operations, the run is identical to the all-success
run. -/
theorem one_by_one_fail_fast (a nr or : String) (procs : List (String × Nat))
    (k : Nat) (e : StratErr) :
    (k < 2 + (oneByOne allOk a nr or procs).1.trace.length →
      (oneByOne (failAt k e) a nr or procs).2 = some e ∧
      (oneByOne (failAt k e) a nr or procs).1.trace =
        (oneByOne allOk a nr or procs).1.trace.take (k - 2)) ∧
    (2 + (oneByOne allOk a nr or procs).1.trace.length ≤ k →
      oneByOne (failAt k e) a nr or procs = oneByOne allOk a nr or procs) := by
  have hOk : oneByOne allOk a nr or procs =
      runLoop allOk a nr or procs (initState procs) := rfl
  by_cases hk2 : k < 2
  · have h01 : k = 0 ∨ k = 1 := by omega
    constructor
    · intro _
      have hrun : oneByOne (failAt k e) a nr or procs =
          (initState procs, some e) := by
        rcases h01 with rfl | rfl <;> simp [oneByOne, failAt]
      rw [hrun]
      refine ⟨rfl, ?_⟩
      simp [initState, show k - 2 = 0 by omega]
    · intro hle
      omega
  · have hne0 : ¬ (0 = k) := by omega
    have hne1 : ¬ (1 = k) := by omega
    have hrun : oneByOne (failAt k e) a nr or procs =
        runLoop (failAt k e) a nr or procs (initState procs) := by
      simp [oneByOne, failAt, hne0, hne1]
    have hLoop := runLoop_failAt a nr or k e procs (initState procs)
      (by simp only [initState]; omega) (by simp [initState])
    have hIdxLen := runLoop_allOk_opIdx_len a nr or procs (initState procs)
      (by simp [initState])
    rw [hOk, hrun]
    constructor
    · intro hlt
      exact hLoop.2 (by omega)
    · intro hle
      exact hLoop.1 (by omega)

/-- Witness for C7: the 5th operation (the wait for the `down` event of
the first unit) fails with a stream failure; the run returns that error
and its trace is the first three actions of the all-success trace. -/
theorem one_by_one_fail_fast_witness :
    (oneByOne (failAt 5 StratErr.streamFailed) "app" "r2" "r1"
        [("web", 2)]).2 = some StratErr.streamFailed ∧
    (oneByOne (failAt 5 StratErr.streamFailed) "app" "r2" "r1"
        [("web", 2)]).1.trace =
      (oneByOne allOk "app" "r2" "r1" [("web", 2)]).1.trace.take (5 - 2) :=
  (one_by_one_fail_fast "app" "r2" "r1" [("web", 2)] 5
    StratErr.streamFailed).1 (by decide)


/-! ## Claim theorems for the controller -/

/-- C5 fails on the code: the query behind `listEvents` has no
`ORDER BY`, so while it returns exactly the persisted events of the
deployment with id greater than `sinceID` (first conjunct: membership in
the result is membership in whatever row sequence the scan produced,
filtered by deployment and cursor), nothing makes that order ascending.
Second conjunct: for a table holding events 1 and 2 of `d1` appended in
ascending id order, a scan returning its rows as [2, 1] — a permutation
the `ORDER BY`-less query is free to produce — makes `listEvents` return
the events in descending order.  The catch-up loop of
`streamDeploymentEvents` nevertheless takes the last row's id as
`currID`, so ascending order is what the code itself relies on. -/
theorem list_events_unordered_without_order_by :
    (∀ (scan : List DeploymentEvent) (D : String) (sinceID : Int)
        (ev : DeploymentEvent),
      ev ∈ listEvents scan D sinceID ↔
        ev ∈ scan ∧ ev.deploymentID = D ∧ sinceID < ev.id) ∧
    (([⟨2, "d1", "r2", "web", "down", "running", 0⟩,
        ⟨1, "d1", "r2", "web", "up", "running", 0⟩] :
          List DeploymentEvent).Perm
        [⟨1, "d1", "r2", "web", "up", "running", 0⟩,
          ⟨2, "d1", "r2", "web", "down", "running", 0⟩] ∧
      List.Pairwise (fun x y => x.id < y.id)
        ([⟨1, "d1", "r2", "web", "up", "running", 0⟩,
          ⟨2, "d1", "r2", "web", "down", "running", 0⟩] :
            List DeploymentEvent) ∧
      listEvents [⟨2, "d1", "r2", "web", "down", "running", 0⟩,
          ⟨1, "d1", "r2", "web", "up", "running", 0⟩] "d1" 0 =
        [⟨2, "d1", "r2", "web", "down", "running", 0⟩,
          ⟨1, "d1", "r2", "web", "up", "running", 0⟩] ∧
      ¬ List.Pairwise (fun x y => x.id < y.id)
        (listEvents [⟨2, "d1", "r2", "web", "down", "running", 0⟩,
          ⟨1, "d1", "r2", "web", "up", "running", 0⟩] "d1" 0)) := by
  constructor
  · intro scan D sinceID ev
    simp [listEvents, List.mem_filter, and_assoc]
  · refine ⟨List.Perm.swap _ _ _, by decide, by decide, by decide⟩

/-- C4 fails on the code: the notify branch of `streamDeploymentEvents`
never assigns to `currID` after emitting, so a wake-up id greater than
`currID` delivered twice is fetched and emitted twice.  With one event of
id 5 in the log and `currID = 0`, handling the wake-up payload "5" emits
the event but leaves `currID` at 0, and the loop over the duplicated
payloads ["5", "5"] emits the same event twice. -/
theorem live_tail_reemits_duplicate_wakeup :
    handleNotify [⟨5, "d1", "r2", "web", "up", "running", 0⟩] 0 "5" =
      some (some ⟨5, "d1", "r2", "web", "up", "running", 0⟩, 0) ∧
    tailLoop [⟨5, "d1", "r2", "web", "up", "running", 0⟩] 0 ["5", "5"] =
      ([⟨5, "d1", "r2", "web", "up", "running", 0⟩,
        ⟨5, "d1", "r2", "web", "up", "running", 0⟩], false) := by
  constructor <;> rfl

/-- C10: a wake-up notification whose payload does not parse as a base-10
signed 64-bit integer makes `streamDeploymentEvents` return: the
notification handler signals termination and the tailing loop stops with
no emission, regardless of the remaining notifications. -/
theorem malformed_wakeup_terminates_stream (table : List DeploymentEvent)
    (currID : Int) (payload : String) (rest : List String)
    (h : parseInt64 payload = none) :
    handleNotify table currID payload = none ∧
    tailLoop table currID (payload :: rest) = ([], true) := by
  refine ⟨?_, ?_⟩
  · simp [handleNotify, h]
  · simp [tailLoop, handleNotify, h]

/-- Witness for C10 with the unparsable payload "garbage". -/
theorem malformed_wakeup_terminates_stream_witness :
    handleNotify [] 0 "garbage" = none ∧
    tailLoop [] 0 ["garbage", "5"] = ([], true) :=
  malformed_wakeup_terminates_stream [] 0 "garbage" ["5"] (by decide)

/-- C8: with the inserted row `row` (the argument, given a fresh id when
it had none, carrying the server-assigned creation timestamp `db.now`),
`DeploymentRepo.Add` appends exactly that row to the deployments table;
on enqueue success it appends exactly one work item carrying the cleaned
deployment id and returns no error; on enqueue failure it returns the
error while the inserted row persists (no rollback) and the queue is
unchanged. -/
theorem add_inserts_then_enqueues (clean : String → String) (freshID : String)
    (db : ControllerDB) (enqueueErr : Option String) (d row : Deployment)
    (hrow : row = { (if d.id = "" then { d with id := freshID } else d) with
                    createdAt := some db.now }) :
    (d.id = "" → row.id = freshID) ∧
    (addDeployment clean freshID db none enqueueErr d).1.deployments =
        db.deployments ++ [row] ∧
    (enqueueErr = none →
      (addDeployment clean freshID db none enqueueErr d).1.queue =
          db.queue ++ [clean row.id] ∧
      (addDeployment clean freshID db none enqueueErr d).2.2 = none) ∧
    (∀ err, enqueueErr = some err →
      (addDeployment clean freshID db none enqueueErr d).2.2 = some err ∧
      (addDeployment clean freshID db none enqueueErr d).1.queue =
        db.queue) := by
  subst hrow
  by_cases hid : d.id = "" <;> cases enqueueErr <;>
    simp [addDeployment, hid]

/-- Witness for C8: an id-less deployment, with the enqueue step
failing. -/
theorem add_inserts_then_enqueues_witness :
    ((⟨"", "app1", "r1", "r2", "one-at-a-time", none, none⟩ :
        Deployment).id = "" →
      (⟨"u1", "app1", "r1", "r2", "one-at-a-time", some 42, none⟩ :
        Deployment).id = "u1") ∧
    (addDeployment (fun x => x) "u1" ⟨[], 42, []⟩ none (some "boom")
        ⟨"", "app1", "r1", "r2", "one-at-a-time", none, none⟩).1.deployments =
      [] ++ [⟨"u1", "app1", "r1", "r2", "one-at-a-time", some 42, none⟩] ∧
    (some "boom" = none →
      (addDeployment (fun x => x) "u1" ⟨[], 42, []⟩ none (some "boom")
          ⟨"", "app1", "r1", "r2", "one-at-a-time", none, none⟩).1.queue =
        [] ++ [(fun x => x)
          (⟨"u1", "app1", "r1", "r2", "one-at-a-time", some 42, none⟩ :
            Deployment).id] ∧
      (addDeployment (fun x => x) "u1" ⟨[], 42, []⟩ none (some "boom")
          ⟨"", "app1", "r1", "r2", "one-at-a-time", none, none⟩).2.2 =
        none) ∧
    (∀ err, some "boom" = some err →
      (addDeployment (fun x => x) "u1" ⟨[], 42, []⟩ none (some "boom")
          ⟨"", "app1", "r1", "r2", "one-at-a-time", none, none⟩).2.2 =
        some err ∧
      (addDeployment (fun x => x) "u1" ⟨[], 42, []⟩ none (some "boom")
          ⟨"", "app1", "r1", "r2", "one-at-a-time", none, none⟩).1.queue =
        []) :=
  add_inserts_then_enqueues (fun x => x) "u1" ⟨[], 42, []⟩ (some "boom")
    ⟨"", "app1", "r1", "r2", "one-at-a-time", none, none⟩
    ⟨"u1", "app1", "r1", "r2", "one-at-a-time", some 42, none⟩ (by rfl)

/-- C9: `DeploymentRepo.Add` rewrites its `*ct.Deployment` argument in
place (modelled as the deployment value handed back to the caller): an
empty incoming `ID` becomes the generated UUID and is then — like
`OldReleaseID` and `NewReleaseID` — rewritten to its cleaned form, and
`CreatedAt` becomes the server-assigned timestamp.  This holds for every
enqueue outcome, in particular when `Add` returns an enqueue error. -/
theorem add_mutates_caller_deployment (clean : String → String)
    (freshID : String) (db : ControllerDB) (enqueueErr : Option String)
    (d : Deployment) :
    (addDeployment clean freshID db none enqueueErr d).2.1.id =
        clean (if d.id = "" then freshID else d.id) ∧
    (addDeployment clean freshID db none enqueueErr d).2.1.createdAt =
        some db.now ∧
    (addDeployment clean freshID db none enqueueErr d).2.1.oldReleaseID =
        clean d.oldReleaseID ∧
    (addDeployment clean freshID db none enqueueErr d).2.1.newReleaseID =
        clean d.newReleaseID ∧
    (addDeployment clean freshID db none enqueueErr d).2.1.appID = d.appID ∧
    (addDeployment clean freshID db none enqueueErr d).2.1.strategy =
        d.strategy := by
  by_cases hid : d.id = "" <;> cases enqueueErr <;>
    simp [addDeployment, hid]


end Flynn
